import Mathlib

/-!
Verification of the ensmallen multi-objective optimizer sources against their
natural-language specification.

The repository holds two C++ source files:
* `src/include/ensmallen_bits/moead/gen_moead_impl.hpp` — a complete (if buggy)
  Generation MOEA/D sketch, embedded below in namespace `gen_moead`;
* `src/include/ensmallen_bits/nsga2/nsga2.hpp` — the NSGA-II interface.  Its
  implementation file `nsga2_impl.hpp` is included by the header but is not part
  of the repository, so the NSGA-II algorithm bodies are modelled from the
  specification (each such definition carries a doc comment starting with
  `Modelled from the spec:`).

Real numbers (`double`) are embedded as rationals `ℚ`; crowding distances,
which the specification extends with `+infinity`, live in `WithTop ℚ`.
External randomness (the C++ `std::default_random_engine` draws and `rand()`
calls) is embedded as oracle streams indexed by a running counter, so every
definition is a pure function of its oracle.
-/

namespace gen_moead

/-- Configuration of `gen_moead` (the constructor's fields). -/
structure Params where
  population_size : ℕ
  number_generations : ℕ
  number_divisions : ℕ
  lower_bounds : List ℚ
  upper_bounds : List ℚ

/-- Oracle for the random draws made by `genmoead_algorithm`:
`realDraw k` is the value produced by the `k`-th real-valued distribution call
on the engine (uniform initialisation draws, then Gaussian mutation draws),
`intDraw k` the `k`-th `uniform_int_distribution` draw (already reduced to the
requested range in the embedding), and `randDraw k` the `k`-th `rand()` result. -/
structure Oracle where
  realDraw : ℕ → ℚ
  intDraw : ℕ → ℕ
  randDraw : ℕ → ℕ

/-- Running state of the algorithm: the population plus the positions in the
three random streams. -/
structure St where
  population : List (List ℚ)
  greal : ℕ
  gint : ℕ
  crand : ℕ

/-- The hard-coded bi-objective problem of `gen_moead::problem_function`:
`f1 = x0^2 + x1^2`, `f2 = (x0-1)^2 + x1^2`. -/
def problem_function (x : List ℚ) : List ℚ :=
  [x.getD 0 0 * x.getD 0 0 + x.getD 1 0 * x.getD 1 0,
   (x.getD 0 0 - 1) * (x.getD 0 0 - 1) + x.getD 1 0 * x.getD 1 0]

/-- `gen_moead::scalarizing_function`: for each objective row, the weighted sum
`Σ_j weights[j] * objectives[i][j]` over the indices of `weights`. -/
def scalarizing_function (objectives : List (List ℚ)) (weights : List ℚ) : List ℚ :=
  objectives.map (fun obj =>
    (List.range weights.length).foldl (fun acc j => acc + weights.getD j 0 * obj.getD j 0) 0)

/-- Initial population of `genmoead_algorithm`: `population[i][j]` is the
`(2*i+j)`-th real draw (a `uniform_real_distribution(lower_bounds[j],
upper_bounds[j])` sample in the source). -/
def initPopulation (P : Params) (o : Oracle) : List (List ℚ) :=
  (List.range P.population_size).map (fun i =>
    (List.range 2).map (fun j => o.realDraw (2 * i + j)))

/-- The weight vectors computed (and then never read — the update loop shadows
them with local zero vectors) at the top of `genmoead_algorithm`. -/
def initWeights (P : Params) : List (List ℚ) :=
  (List.range P.number_divisions).map (fun i =>
    [((i : ℚ) + 1) / (P.number_divisions : ℚ), 1 - ((i : ℚ) + 1) / (P.number_divisions : ℚ)])

/-- The pre-clamp value of coordinate `j` of the child: inherit from `parent1`
or `parent2` by `rand() % 2`, then with chance `rand() % 10 < 1` add a Gaussian
draw.  `crand` and `greal` are the current stream positions. -/
def rawCoord (o : Oracle) (parent1 parent2 : List ℚ) (j crand greal : ℕ) : ℚ :=
  let c0 := if o.randDraw crand % 2 = 0 then parent1.getD j 0 else parent2.getD j 0
  if o.randDraw (crand + 1) % 10 < 1 then c0 + o.realDraw greal else c0

/-- One coordinate of the child as stored by the source:
`child[j] = std::max(lower_bounds[j], child[j])` applied to the pre-clamp value.
Only the lower bound is enforced; the source never applies `upper_bounds`.
Returns the coordinate together with the advanced `crand` and `greal` counters. -/
def mutCoord (P : Params) (o : Oracle) (parent1 parent2 : List ℚ) (j crand greal : ℕ) :
    ℚ × ℕ × ℕ :=
  (max (P.lower_bounds.getD j 0) (rawCoord o parent1 parent2 j crand greal),
   crand + 2,
   if o.randDraw (crand + 1) % 10 < 1 then greal + 1 else greal)

/-- The population-update loop of `genmoead_algorithm` (source lines 131-138):
for each slot `jj`, build the zero-initialised locals `j_objectives` and
`j_weights`, scalarize, and overwrite `population[jj]` with the child when the
strict comparison of the two scalarizations holds. -/
def updatePopulation (P : Params) (child : List ℚ) (pop : List (List ℚ)) :
    List (List ℚ) :=
  let child_objectives := problem_function child
  (List.range P.population_size).foldl (fun p jj =>
    let j_objectives : List ℚ := [0, 0]
    let j_weights : List ℚ := [0, 0]
    let j_scalar_objectives := scalarizing_function [j_objectives, child_objectives] j_weights
    if j_scalar_objectives.getD 0 0 < (scalarizing_function [j_objectives] j_weights).getD 0 0
    then p.set jj child
    else p) pop

/-- The coordinate loop (`for j in 0,1`) of one subproblem.  Because of the
brace placement in the source, the child evaluation and the population-update
loop are nested inside the coordinate loop, so they run once per coordinate:
first with the child `[c0, 0]` (`child[1]` still value-initialised to 0), then
with `[c0, c1]`. -/
def coordLoop (P : Params) (o : Oracle) (parent1 parent2 : List ℚ) (s : St) : St :=
  let r0 := mutCoord P o parent1 parent2 0 s.crand s.greal
  let pop0 := updatePopulation P [r0.1, 0] s.population
  let r1 := mutCoord P o parent1 parent2 1 r0.2.1 r0.2.2
  let pop1 := updatePopulation P [r0.1, r1.1] pop0
  ⟨pop1, r1.2.2, s.gint, r1.2.1⟩

/-- One subproblem iteration: draw two parent indices uniformly in
`[0, population_size - 1]`, fetch the parents, and run the coordinate loop. -/
def subproblem (P : Params) (o : Oracle) (s : St) : St :=
  let i1 := o.intDraw s.gint % P.population_size
  let i2 := o.intDraw (s.gint + 1) % P.population_size
  let parent1 := s.population.getD i1 [0, 0]
  let parent2 := s.population.getD i2 [0, 0]
  coordLoop P o parent1 parent2 ⟨s.population, s.greal, s.gint + 2, s.crand⟩

/-- One generation: iterate the subproblem step over all divisions.  The
objectives table computed at the top of each generation in the source is dead
(the update loop shadows it with local zero vectors), so it is not threaded. -/
def generation (P : Params) (o : Oracle) (s : St) : St :=
  (List.range P.number_divisions).foldl (fun st _ => subproblem P o st) s

/-- `gen_moead::genmoead_algorithm`: initialise the population from the oracle
(the first `2 * population_size` real draws), then run all generations and
return the final population. -/
def genmoead_algorithm (P : Params) (o : Oracle) : List (List ℚ) :=
  (((List.range P.number_generations).foldl (fun st _ => generation P o st)
      ⟨initPopulation P o, 2 * P.population_size, 0, 0⟩) : St).population

end gen_moead

namespace NSGA2

/-- Configuration of the NSGA-II optimizer: the constructor parameters declared
in `nsga2.hpp` (`populationSize`, `maxGenerations`, `crossoverProb`,
`mutationProb`, `mutationStrength`, `epsilon`). -/
structure Config where
  populationSize : ℕ
  maxGenerations : ℕ
  crossoverProb : ℚ
  mutationProb : ℚ
  mutationStrength : ℚ
  epsilon : ℚ

/-- The random-source collaborator of the spec, embedded as oracle streams:
`realDraw k` is the `k`-th uniform-real/Gaussian draw, `intDraw k` the `k`-th
integer draw (reduced modulo the requested range at the call site). -/
structure Oracle where
  realDraw : ℕ → ℚ
  intDraw : ℕ → ℕ

/-- Modelled from the spec: body of `NSGA2::Dominates` (`nsga2_impl.hpp` is not
in the repository).  Candidate `candidateP` dominates `candidateQ` iff every
objective of `P` is `≤` the corresponding objective of `Q` and some objective is
strictly `<` (minimization convention). -/
def Dominates (calculatedObjectives : List (List ℚ)) (candidateP candidateQ : ℕ) : Bool :=
  let op := calculatedObjectives.getD candidateP []
  let oq := calculatedObjectives.getD candidateQ []
  ((op.zip oq).all fun c => decide (c.1 ≤ c.2)) &&
    ((op.zip oq).any fun c => decide (c.1 < c.2))

/-- Sum of a candidate's objective vector; a strictly dominated candidate has a
strictly larger objective sum, which witnesses acyclicity of domination. -/
def sumObj (objs : List (List ℚ)) (p : ℕ) : ℚ :=
  (objs.getD p []).sum

/-- Modelled from the spec: the iterative front-peeling loop of
`NSGA2::FastNonDominatedSort` (`nsga2_impl.hpp` is not in the repository).
A candidate's domination count over the still-unassigned candidates drops to 0
exactly when no unassigned candidate dominates it, so each round the next front
is the set of unassigned candidates with no unassigned dominator.  The fuel
argument bounds the number of rounds; with fuel `≥ |remaining|` it never runs
out because every round assigns at least one candidate (the inner guard against
an empty front is unreachable for an acyclic domination relation). -/
def peel (dom : ℕ → ℕ → Bool) (remaining : List ℕ) : List ℕ :=
  remaining.filter (fun p => remaining.all (fun q => !(dom q p)))

/-- The unassigned candidates left after removing the current front. -/
def afterPeel (dom : ℕ → ℕ → Bool) (remaining : List ℕ) : List ℕ :=
  remaining.filter (fun p => !((peel dom remaining).contains p))

/-- Modelled from the spec: the round loop of `NSGA2::FastNonDominatedSort`
(continued): peel fronts until no candidate remains (the peel of an empty
remainder is empty, which stops the loop). -/
def sortFronts (dom : ℕ → ℕ → Bool) : ℕ → List ℕ → List (List ℕ)
  | 0, _ => []
  | fuel + 1, remaining =>
    if peel dom remaining = [] then []
    else peel dom remaining :: sortFronts dom fuel (afterPeel dom remaining)

/-- Modelled from the spec: `NSGA2::FastNonDominatedSort` (`nsga2_impl.hpp` is
not in the repository): partition candidate indices `0, …, N-1` into ranked
fronts by repeatedly peeling the currently non-dominated candidates. -/
def FastNonDominatedSort (calculatedObjectives : List (List ℚ)) : List (List ℕ) :=
  sortFronts (fun p q => Dominates calculatedObjectives p q)
    calculatedObjectives.length (List.range calculatedObjectives.length)

/-- Rank of a candidate: the index of the front containing it. -/
def Ranks (fronts : List (List ℕ)) : ℕ → ℕ :=
  fun p => fronts.findIdx (fun f => f.contains p)

/-- Value of objective `j` for candidate `p` in an objectives table. -/
def valuesOf (objs : List (List ℚ)) (j : ℕ) : ℕ → ℚ :=
  fun p => (objs.getD p []).getD j 0

/-- Modelled from the spec: the amount added to an interior candidate (at
position `i` of the front sorted by one objective) during
`NSGA2::CrowdingDistanceAssignment` — `(next − prev) / (max − min)`, with a
zero contribution when the front is degenerate on this objective
(`max = min`), avoiding the division by zero. -/
def CrowdingContribution (values : ℕ → ℚ) (sorted : List ℕ) (i : ℕ) : ℚ :=
  let minv := values (sorted.getD 0 0)
  let maxv := values (sorted.getD (sorted.length - 1) 0)
  if maxv = minv then 0
  else (values (sorted.getD (i + 1) 0) - values (sorted.getD (i - 1) 0)) / (maxv - minv)

/-- Modelled from the spec: one objective's pass of
`NSGA2::CrowdingDistanceAssignment` (`nsga2_impl.hpp` is not in the
repository): sort the front by the objective's values, assign `+infinity`
(`⊤`) to the two boundary candidates, and add the crowding contribution to
every interior candidate. -/
def CrowdingPassSorted (values : ℕ → ℚ) (sorted : List ℕ) (dist : ℕ → WithTop ℚ) :
    ℕ → WithTop ℚ :=
  fun p =>
    if p ∈ sorted then
      if sorted.indexOf p = 0 ∨ sorted.indexOf p = sorted.length - 1 then ⊤
      else dist p + ((CrowdingContribution values sorted (sorted.indexOf p) : ℚ) : WithTop ℚ)
    else dist p

/-- Modelled from the spec: one objective's pass sorts the front ascending by
the objective's values and updates the distances as in `CrowdingPassSorted`. -/
def CrowdingPass (values : ℕ → ℚ) (front : List ℕ) (dist : ℕ → WithTop ℚ) :
    ℕ → WithTop ℚ :=
  CrowdingPassSorted values (List.insertionSort (fun a b => values a ≤ values b) front) dist

/-- Modelled from the spec: `NSGA2::CrowdingDistanceAssignment`
(`nsga2_impl.hpp` is not in the repository): start every candidate of the front
at distance 0 and run one pass per objective (`m` objectives). -/
def CrowdingDistanceAssignment (objs : List (List ℚ)) (m : ℕ) (front : List ℕ) :
    ℕ → WithTop ℚ :=
  (List.range m).foldl (fun dist j => CrowdingPass (valuesOf objs j) front dist)
    (fun _ => 0)

/-- Crowding distances for a whole population: each candidate's distance is
computed within the front that contains it. -/
def AllCrowding (objs : List (List ℚ)) (m : ℕ) (fronts : List (List ℕ)) :
    ℕ → WithTop ℚ :=
  fun p =>
    match fronts.find? (fun f => f.contains p) with
    | some f => CrowdingDistanceAssignment objs m f p
    | none => 0

/-- Modelled from the spec: body of `NSGA2::CrowdingOperator` (`nsga2_impl.hpp`
is not in the repository): prefer the strictly smaller rank; among equal ranks
prefer the strictly larger crowding distance. -/
def CrowdingOperator (idxP idxQ : ℕ) (ranks : ℕ → ℕ)
    (crowdingDistance : ℕ → WithTop ℚ) : Bool :=
  decide (ranks idxP < ranks idxQ) ||
    (decide (ranks idxP = ranks idxQ) &&
      decide (crowdingDistance idxQ < crowdingDistance idxP))

/-- Modelled from the spec: the Truncate step of `NSGA2::Optimize`
(`nsga2_impl.hpp` is not in the repository): walk the fronts in rank order,
taking whole fronts while they fit; the first front that would overflow the
remaining capacity is sorted by descending crowding distance and only its
most-crowding-diverse candidates are taken, all later fronts are dropped. -/
def Truncate (cd : ℕ → WithTop ℚ) : List (List ℕ) → ℕ → List ℕ
  | [], _ => []
  | f :: rest, cap =>
    if f.length ≤ cap then f ++ Truncate cd rest (cap - f.length)
    else (List.insertionSort (fun a b => cd b ≤ cd a) f).take cap

/-- Modelled from the spec: the Init state of `NSGA2::Optimize`
(`nsga2_impl.hpp` is not in the repository): `populationSize` candidates built
around the starting point by adding a `mutationStrength`-scaled oracle draw to
every coordinate.  The state `(realIdx, intIdx)` threads the oracle
positions. -/
def initialPopulation (cfg : Config) (o : Oracle) (iterate : List ℚ) (s : ℕ × ℕ) :
    List (List ℚ) × ℕ × ℕ :=
  let d := iterate.length
  ((List.range cfg.populationSize).map (fun i =>
      (iterate.zip (List.range d)).map (fun ck =>
        ck.1 + cfg.mutationStrength * o.realDraw (s.1 + i * d + ck.2))),
   (s.1 + cfg.populationSize * d, s.2))

/-- Modelled from the spec: one binary-tournament pick — draw two indices
uniformly in `[0, n)` and keep the one preferred by the crowding operator. -/
def BinaryTournamentPick (o : Oracle) (n : ℕ) (ranks : ℕ → ℕ)
    (cd : ℕ → WithTop ℚ) (s : ℕ × ℕ) : ℕ × ℕ × ℕ :=
  let a := o.intDraw s.2 % n
  let b := o.intDraw (s.2 + 1) % n
  (if CrowdingOperator a b ranks cd then a else b, s.1, s.2 + 2)

/-- Modelled from the spec: `NSGA2::Crossover` (`nsga2_impl.hpp` is not in the
repository; the blend rule is a policy choice left open by the spec): with
probability `crossoverProb` each coordinate of the two children is inherited
from one parent or the other by a coin flip, otherwise the children are exact
copies of the parents.  Dimensionality is preserved. -/
def Crossover (cfg : Config) (o : Oracle) (parentA parentB : List ℚ) (s : ℕ × ℕ) :
    (List ℚ × List ℚ) × ℕ × ℕ :=
  let d := parentA.length
  if o.realDraw s.1 < cfg.crossoverProb then
    ((((parentA.zip parentB).zip (List.range d)).map (fun x =>
        if o.intDraw (s.2 + x.2) % 2 = 0 then x.1.1 else x.1.2),
      ((parentA.zip parentB).zip (List.range d)).map (fun x =>
        if o.intDraw (s.2 + x.2) % 2 = 0 then x.1.2 else x.1.1)),
     (s.1 + 1, s.2 + d))
  else ((parentA, parentB), (s.1 + 1, s.2))

/-- Modelled from the spec: `NSGA2::Mutate` (`nsga2_impl.hpp` is not in the
repository): each coordinate is perturbed, with probability `mutationProb`, by
a `mutationStrength`-scaled oracle draw. -/
def Mutate (cfg : Config) (o : Oracle) (child : List ℚ) (s : ℕ × ℕ) :
    List ℚ × ℕ × ℕ :=
  let d := child.length
  ((child.zip (List.range d)).map (fun ck =>
      if o.realDraw (s.1 + 2 * ck.2) < cfg.mutationProb
      then ck.1 + cfg.mutationStrength * o.realDraw (s.1 + 2 * ck.2 + 1)
      else ck.1),
   (s.1 + 2 * d, s.2))

/-- Modelled from the spec: one round of `NSGA2::BinaryTournamentSelection`
(`nsga2_impl.hpp` is not in the repository): pick two parents by binary
tournament and append the two children produced by crossover followed by
mutation, so each round contributes exactly two children. -/
def SelectionRound (cfg : Config) (o : Oracle) (population : List (List ℚ))
    (ranks : ℕ → ℕ) (cd : ℕ → WithTop ℚ) (acc : List (List ℚ) × ℕ × ℕ) :
    List (List ℚ) × ℕ × ℕ :=
  let pickA := BinaryTournamentPick o cfg.populationSize ranks cd acc.2
  let pickB := BinaryTournamentPick o cfg.populationSize ranks cd pickA.2
  let cross := Crossover cfg o (population.getD pickA.1 [])
    (population.getD pickB.1 []) pickB.2
  let mutA := Mutate cfg o cross.1.1 cross.2
  let mutB := Mutate cfg o cross.1.2 mutA.2
  (acc.1 ++ [mutA.1, mutB.1], mutB.2)

/-- Modelled from the spec: `NSGA2::BinaryTournamentSelection` (continued):
`populationSize / 2` selection rounds starting from an empty child list. -/
def BinaryTournamentSelection (cfg : Config) (o : Oracle)
    (population : List (List ℚ)) (ranks : ℕ → ℕ) (cd : ℕ → WithTop ℚ)
    (s : ℕ × ℕ) : List (List ℚ) × ℕ × ℕ :=
  (List.range (cfg.populationSize / 2)).foldl
    (fun acc _ => SelectionRound cfg o population ranks cd acc) ([], s)

/-- Modelled from the spec: one generation of `NSGA2::Optimize`
(`nsga2_impl.hpp` is not in the repository): evaluate and sort the parents,
produce `populationSize` children by tournament/crossover/mutation, merge
parents and children, re-sort and re-crowd the union, and truncate back to
`populationSize` elitistically. -/
def StepChildren (cfg : Config) (o : Oracle) (objectives : List ℚ → List ℚ)
    (pop : List (List ℚ)) (s : ℕ × ℕ) : List (List ℚ) × ℕ × ℕ :=
  BinaryTournamentSelection cfg o pop
    (Ranks (FastNonDominatedSort (pop.map objectives)))
    (AllCrowding (pop.map objectives) (((pop.map objectives).headD []).length)
      (FastNonDominatedSort (pop.map objectives)))
    s

/-- Modelled from the spec: one generation of `NSGA2::Optimize` (continued):
merge the parents with the children, re-sort and re-crowd the union, and
truncate back to `populationSize` elitistically. -/
def Step (cfg : Config) (o : Oracle) (objectives : List ℚ → List ℚ)
    (st : List (List ℚ) × ℕ × ℕ) : List (List ℚ) × ℕ × ℕ :=
  let children := StepChildren cfg o objectives st.1 st.2
  let union := st.1 ++ children.1
  let objsU := union.map objectives
  ((Truncate (AllCrowding objsU (((st.1.map objectives).headD []).length)
        (FastNonDominatedSort objsU))
      (FastNonDominatedSort objsU) cfg.populationSize).map
      (fun i => union.getD i []),
   children.2)

/-- Iterate the generational step `g` times. -/
def Generations (cfg : Config) (o : Oracle) (objectives : List ℚ → List ℚ) :
    ℕ → List (List ℚ) × ℕ × ℕ → List (List ℚ) × ℕ × ℕ
  | 0, st => st
  | g + 1, st => Generations cfg o objectives g (Step cfg o objectives st)

/-- The candidates of the rank-0 front of a population (the returned Pareto
front approximation). -/
def bestFront (objectives : List ℚ → List ℚ) (pop : List (List ℚ)) :
    List (List ℚ) :=
  ((FastNonDominatedSort (pop.map objectives)).headD []).map (fun i => pop.getD i [])

/-- Modelled from the spec: `NSGA2::Optimize` (`nsga2_impl.hpp` is not in the
repository): build the initial population around the starting point, run
`maxGenerations` generational steps, and return the rank-0 front of the final
population. -/
def Optimize (cfg : Config) (o : Oracle) (objectives : List ℚ → List ℚ)
    (iterate : List ℚ) : List (List ℚ) :=
  bestFront objectives
    (Generations cfg o objectives cfg.maxGenerations
      (initialPopulation cfg o iterate (0, 0))).1

/-- The population after each generation `0, …, maxGenerations` of a run of
`Optimize` (generation 0 is the initial population). -/
def PopulationTrace (cfg : Config) (o : Oracle) (objectives : List ℚ → List ℚ)
    (iterate : List ℚ) : List (List (List ℚ)) :=
  (List.range (cfg.maxGenerations + 1)).map
    (fun g => (Generations cfg o objectives g (initialPopulation cfg o iterate (0, 0))).1)

end NSGA2

section GenMoeadLemmas

open gen_moead

lemma foldl_id_fun {α β : Type} (l : List β) (a : α) :
    l.foldl (fun x _ => x) a = a := by
  induction l generalizing a with
  | nil => rfl
  | cons b t ih => exact ih a

lemma scalarizing_zero_weights (objectives : List (List ℚ)) :
    scalarizing_function objectives [0, 0] = objectives.map (fun _ => 0) := by
  unfold scalarizing_function
  refine List.map_congr_left (fun obj _ => ?_)
  simp [List.range_succ]

lemma updatePopulation_fixed (P : Params) (child : List ℚ) (pop : List (List ℚ)) :
    updatePopulation P child pop = pop := by
  unfold updatePopulation
  simp [scalarizing_zero_weights, foldl_id_fun]

lemma coordLoop_population (P : Params) (o : Oracle) (p1 p2 : List ℚ) (s : St) :
    (coordLoop P o p1 p2 s).population = s.population := by
  simp [coordLoop, updatePopulation_fixed]

lemma subproblem_population (P : Params) (o : Oracle) (s : St) :
    (subproblem P o s).population = s.population := by
  simp [subproblem, coordLoop_population]

lemma generation_population (P : Params) (o : Oracle) (s : St) :
    (generation P o s).population = s.population := by
  unfold generation
  induction (List.range P.number_divisions) generalizing s with
  | nil => rfl
  | cons b t ih => simpa [List.foldl, subproblem_population] using ih (subproblem P o s)

lemma generations_population (P : Params) (o : Oracle) (l : List ℕ) (s : St) :
    (l.foldl (fun st _ => generation P o st) s).population = s.population := by
  induction l generalizing s with
  | nil => rfl
  | cons b t ih => simpa [List.foldl, generation_population] using ih (generation P o s)

/-- C10: `genmoead_algorithm` returns its initial randomly sampled population
unchanged: the only write to the population after initialisation is guarded by
a comparison of two scalarizations computed with the zero-initialised local
vectors `j_weights` and `j_objectives`, so both sides equal 0, the strict
inequality `0 < 0` is always false, and `population[j] = child` never
executes. -/
theorem genmoead_returns_initial_population (P : gen_moead.Params) (o : gen_moead.Oracle) :
    gen_moead.genmoead_algorithm P o = gen_moead.initPopulation P o ∧
      ∀ child pop, gen_moead.updatePopulation P child pop = pop := by
  constructor
  · unfold genmoead_algorithm
    rw [generations_population]
  · exact fun child pop => updatePopulation_fixed P child pop

/-- C9: the post-mutation clamp of the MOEA/D sketch enforces only the lower
bound — every stored child coordinate equals `max(lower_bounds[j], value)` of
the pre-clamp value, hence is always `≥ lower_bounds[j]` — and no upper-bound
clamp is applied: there are concrete inputs (bounds `[0,1]`, an in-bounds
parent, a mutation draw of `7`) for which the stored coordinate strictly
exceeds `upper_bounds[j]`. -/
theorem mutCoord_clamps_only_lower :
    (∀ (P : gen_moead.Params) (o : gen_moead.Oracle) (p1 p2 : List ℚ) (j crand greal : ℕ),
        (gen_moead.mutCoord P o p1 p2 j crand greal).1 =
          max (P.lower_bounds.getD j 0) (gen_moead.rawCoord o p1 p2 j crand greal) ∧
        P.lower_bounds.getD j 0 ≤ (gen_moead.mutCoord P o p1 p2 j crand greal).1) ∧
    (∃ (P : gen_moead.Params) (o : gen_moead.Oracle) (p1 p2 : List ℚ) (j crand greal : ℕ),
        P.upper_bounds.getD j 0 <
          (gen_moead.mutCoord P o p1 p2 j crand greal).1) := by
  constructor
  · intro P o p1 p2 j crand greal
    exact ⟨rfl, le_max_left _ _⟩
  · refine ⟨⟨1, 1, 1, [0, 0], [1, 1]⟩,
      ⟨fun _ => 7, fun _ => 0, fun _ => 0⟩, [1/2, 1/2], [1/2, 1/2], 0, 0, 0, ?_⟩
    simp [gen_moead.mutCoord, gen_moead.rawCoord]
    norm_num

end GenMoeadLemmas

section DominatesLemmas

lemma zip_all_le_iff (a b : List ℚ) (m : ℕ) (ha : a.length = m) (hb : b.length = m) :
    (((a.zip b).all fun c => decide (c.1 ≤ c.2)) = true) ↔
      ∀ j, j < m → a.getD j 0 ≤ b.getD j 0 := by
  rw [List.all_eq_true]
  constructor
  · intro h j hj
    have hja : j < a.length := ha ▸ hj
    have hjb : j < b.length := hb ▸ hj
    have hjz : j < (a.zip b).length := by
      rw [List.length_zip, ha, hb]
      exact lt_min hj hj
    have hmem : (a[j], b[j]) ∈ a.zip b := by
      have hg := List.getElem_mem hjz
      rwa [List.getElem_zip] at hg
    have hd := h _ hmem
    rw [List.getD_eq_getElem a 0 hja, List.getD_eq_getElem b 0 hjb]
    exact of_decide_eq_true hd
  · intro h c hc
    obtain ⟨i, hi, hci⟩ := List.getElem_of_mem hc
    rw [List.getElem_zip] at hci
    have hia : i < a.length := by
      rw [List.length_zip] at hi
      exact lt_of_lt_of_le hi (min_le_left _ _)
    have hib : i < b.length := by
      rw [List.length_zip] at hi
      exact lt_of_lt_of_le hi (min_le_right _ _)
    have := h i (ha ▸ hia)
    rw [List.getD_eq_getElem a 0 hia, List.getD_eq_getElem b 0 hib] at this
    rw [← hci]
    exact decide_eq_true this

lemma zip_any_lt_iff (a b : List ℚ) (m : ℕ) (ha : a.length = m) (hb : b.length = m) :
    (((a.zip b).any fun c => decide (c.1 < c.2)) = true) ↔
      ∃ j, j < m ∧ a.getD j 0 < b.getD j 0 := by
  rw [List.any_eq_true]
  constructor
  · intro h
    obtain ⟨c, hc, hlt⟩ := h
    obtain ⟨i, hi, hci⟩ := List.getElem_of_mem hc
    rw [List.getElem_zip] at hci
    have hia : i < a.length := by
      rw [List.length_zip] at hi
      exact lt_of_lt_of_le hi (min_le_left _ _)
    have hib : i < b.length := by
      rw [List.length_zip] at hi
      exact lt_of_lt_of_le hi (min_le_right _ _)
    refine ⟨i, ha ▸ hia, ?_⟩
    rw [List.getD_eq_getElem a 0 hia, List.getD_eq_getElem b 0 hib]
    have := of_decide_eq_true hlt
    rw [← hci] at this
    exact this
  · intro h
    obtain ⟨j, hj, hlt⟩ := h
    have hja : j < a.length := ha ▸ hj
    have hjb : j < b.length := hb ▸ hj
    have hjz : j < (a.zip b).length := by
      rw [List.length_zip, ha, hb]
      exact lt_min hj hj
    refine ⟨(a[j], b[j]), ?_, ?_⟩
    · have hg := List.getElem_mem hjz
      rwa [List.getElem_zip] at hg
    · rw [List.getD_eq_getElem a 0 hja, List.getD_eq_getElem b 0 hjb] at hlt
      exact decide_eq_true hlt

lemma zip_self_any_lt (a : List ℚ) :
    ((a.zip a).any fun c => decide (c.1 < c.2)) = false := by
  rw [Bool.eq_false_iff]
  intro h
  rw [List.any_eq_true] at h
  obtain ⟨c, hc, hlt⟩ := h
  obtain ⟨i, hi, hci⟩ := List.getElem_of_mem hc
  rw [List.getElem_zip] at hci
  have := of_decide_eq_true hlt
  rw [← hci] at this
  exact lt_irrefl _ this

lemma getD_row_length (objs : List (List ℚ)) (m p : ℕ)
    (hwf : ∀ r ∈ objs, r.length = m) (hp : p < objs.length) :
    (objs.getD p []).length = m := by
  rw [List.getD_eq_getElem objs [] hp]
  exact hwf _ (List.getElem_mem hp)

/-- C1: `Dominates(objectives, p, q)` returns true iff `objectives[p][j] ≤
objectives[q][j]` for every objective index `j < m` and strictly `<` for at
least one `j`; when `p` and `q` have identical objective vectors, both
`Dominates(p,q)` and `Dominates(q,p)` return false.  The embedding is a pure
function, so it has no side effects. -/
theorem Dominates_spec (objs : List (List ℚ)) (m p q : ℕ)
    (hwf : ∀ r ∈ objs, r.length = m)
    (hp : p < objs.length) (hq : q < objs.length) :
    (NSGA2.Dominates objs p q = true ↔
      ((∀ j, j < m → NSGA2.valuesOf objs j p ≤ NSGA2.valuesOf objs j q) ∧
        ∃ j, j < m ∧ NSGA2.valuesOf objs j p < NSGA2.valuesOf objs j q)) ∧
    (objs.getD p [] = objs.getD q [] →
      NSGA2.Dominates objs p q = false ∧ NSGA2.Dominates objs q p = false) := by
  have hlp := getD_row_length objs m p hwf hp
  have hlq := getD_row_length objs m q hwf hq
  constructor
  · unfold NSGA2.Dominates NSGA2.valuesOf
    rw [Bool.and_eq_true, zip_all_le_iff _ _ m hlp hlq, zip_any_lt_iff _ _ m hlp hlq]
  · intro heq
    constructor
    · simp only [NSGA2.Dominates]
      rw [heq, zip_self_any_lt, Bool.and_false]
    · simp only [NSGA2.Dominates]
      rw [← heq, zip_self_any_lt, Bool.and_false]

theorem Dominates_spec_witness :
    ((∀ r ∈ [[(0 : ℚ), 0], [1, 1]], r.length = 2) ∧ 0 < 2 ∧ 1 < 2) ∧
    ((NSGA2.Dominates [[(0 : ℚ), 0], [1, 1]] 0 1 = true ↔
      ((∀ j, j < 2 →
          NSGA2.valuesOf [[(0 : ℚ), 0], [1, 1]] j 0 ≤
            NSGA2.valuesOf [[(0 : ℚ), 0], [1, 1]] j 1) ∧
        ∃ j, j < 2 ∧
          NSGA2.valuesOf [[(0 : ℚ), 0], [1, 1]] j 0 <
            NSGA2.valuesOf [[(0 : ℚ), 0], [1, 1]] j 1)) ∧
     ([[(0 : ℚ), 0], [1, 1]].getD 0 [] = [[(0 : ℚ), 0], [1, 1]].getD 1 [] →
       NSGA2.Dominates [[(0 : ℚ), 0], [1, 1]] 0 1 = false ∧
       NSGA2.Dominates [[(0 : ℚ), 0], [1, 1]] 1 0 = false)) :=
  ⟨⟨by decide, by decide, by decide⟩,
    Dominates_spec [[(0 : ℚ), 0], [1, 1]] 2 0 1 (by decide) (by decide) (by decide)⟩

end DominatesLemmas

section CrowdingOperatorLemmas

/-- C5: `CrowdingOperator(p, q, ranks, crowdingDistance)` prefers `p` exactly
when `ranks[p] < ranks[q]`, or the ranks are equal and `crowdingDistance[p] >
crowdingDistance[q]`; in particular it never prefers a candidate of strictly
worse (larger) rank over one of strictly better rank. -/
theorem CrowdingOperator_spec (p q : ℕ) (ranks : ℕ → ℕ) (cd : ℕ → WithTop ℚ) :
    (NSGA2.CrowdingOperator p q ranks cd = true ↔
      (ranks p < ranks q ∨ (ranks p = ranks q ∧ cd q < cd p))) ∧
    (ranks q < ranks p → NSGA2.CrowdingOperator p q ranks cd = false) := by
  constructor
  · simp [NSGA2.CrowdingOperator]
  · intro h
    have h1 : ¬ ranks p < ranks q := not_lt_of_gt h
    have h2 : ranks p ≠ ranks q := ne_of_gt h
    simp [NSGA2.CrowdingOperator, h1, h2]

theorem CrowdingOperator_spec_witness :
    ((0 : ℕ) < 1) ∧
    NSGA2.CrowdingOperator 1 0 (fun k => k) (fun _ => 0) = false :=
  ⟨by decide, (CrowdingOperator_spec 1 0 (fun k => k) (fun _ => 0)).2 (by decide)⟩

end CrowdingOperatorLemmas

section SortLemmas

lemma exists_min_key (key : ℕ → ℚ) :
    ∀ (l : List ℕ), l ≠ [] → ∃ p ∈ l, ∀ q ∈ l, key p ≤ key q := by
  intro l
  induction l with
  | nil => intro h; exact absurd rfl h
  | cons a t ih =>
    intro _
    by_cases ht : t = []
    · subst ht
      refine ⟨a, List.mem_cons_self a [], ?_⟩
      intro q hq
      rcases List.mem_cons.mp hq with h1 | h1
      · subst h1; exact le_refl _
      · exact absurd h1 (List.not_mem_nil q)
    · obtain ⟨p, hp, hmin⟩ := ih ht
      by_cases hap : key a ≤ key p
      · refine ⟨a, List.mem_cons_self a t, ?_⟩
        intro q hq
        rcases List.mem_cons.mp hq with h1 | h1
        · subst h1; exact le_refl _
        · exact le_trans hap (hmin q h1)
      · refine ⟨p, List.mem_cons_of_mem a hp, ?_⟩
        intro q hq
        rcases List.mem_cons.mp hq with h1 | h1
        · subst h1; exact le_of_lt (lt_of_not_le hap)
        · exact hmin q h1

lemma contains_iff_mem_nat (l : List ℕ) (x : ℕ) : l.contains x = true ↔ x ∈ l := by
  simp [List.contains_eq_any_beq, List.any_eq_true]

lemma all_not_dom_iff (dom : ℕ → ℕ → Bool) (rem : List ℕ) (p : ℕ) :
    ((rem.all fun q => !(dom q p)) = true) ↔ ∀ q ∈ rem, dom q p = false := by
  simp [List.all_eq_true]

lemma mem_peel_iff (dom : ℕ → ℕ → Bool) (rem : List ℕ) (p : ℕ) :
    p ∈ NSGA2.peel dom rem ↔ p ∈ rem ∧ ∀ q ∈ rem, dom q p = false := by
  unfold NSGA2.peel
  rw [List.mem_filter, all_not_dom_iff]

lemma peel_ne_nil (dom : ℕ → ℕ → Bool) (key : ℕ → ℚ)
    (hkey : ∀ q p, dom q p = true → key q < key p)
    (rem : List ℕ) (hne : rem ≠ []) : NSGA2.peel dom rem ≠ [] := by
  obtain ⟨p, hp, hmin⟩ := exists_min_key key rem hne
  intro hnil
  have hmem : p ∈ NSGA2.peel dom rem := by
    rw [mem_peel_iff]
    refine ⟨hp, fun q hq => ?_⟩
    cases hdq : dom q p
    · rfl
    · exact absurd (hmin q hq) (not_le_of_gt (hkey q p hdq))
  rw [hnil] at hmem
  exact List.not_mem_nil p hmem

lemma mem_afterPeel_iff (dom : ℕ → ℕ → Bool) (rem : List ℕ) (p : ℕ) :
    p ∈ NSGA2.afterPeel dom rem ↔ p ∈ rem ∧ p ∉ NSGA2.peel dom rem := by
  unfold NSGA2.afterPeel
  rw [List.mem_filter]
  constructor
  · rintro ⟨h1, h2⟩
    refine ⟨h1, ?_⟩
    intro hc
    rw [(contains_iff_mem_nat _ _).mpr hc] at h2
    simp at h2
  · rintro ⟨h1, h2⟩
    refine ⟨h1, ?_⟩
    cases hcq : (NSGA2.peel dom rem).contains p
    · rfl
    · exact absurd ((contains_iff_mem_nat _ _).mp hcq) h2

lemma perm_peel_afterPeel (dom : ℕ → ℕ → Bool) (rem : List ℕ) :
    (NSGA2.peel dom rem ++ NSGA2.afterPeel dom rem).Perm rem := by
  have hfe : NSGA2.afterPeel dom rem =
      rem.filter (fun p => !(rem.all fun q => !(dom q p))) := by
    unfold NSGA2.afterPeel
    apply List.filter_congr
    intro x hx
    congr 1
    rw [Bool.eq_iff_iff, contains_iff_mem_nat]
    unfold NSGA2.peel
    rw [List.mem_filter]
    constructor
    · intro h; exact h.2
    · intro h; exact ⟨hx, h⟩
  rw [hfe]
  exact List.filter_append_perm _ rem

lemma sortFronts_subset (dom : ℕ → ℕ → Bool) :
    ∀ (fuel : ℕ) (rem : List ℕ) (f : List ℕ),
      f ∈ NSGA2.sortFronts dom fuel rem → ∀ p ∈ f, p ∈ rem := by
  intro fuel
  induction fuel with
  | zero => intro rem f hf; simp [NSGA2.sortFronts] at hf
  | succ n ih =>
    intro rem f hf p hp
    rw [NSGA2.sortFronts] at hf
    by_cases h1 : NSGA2.peel dom rem = []
    · rw [if_pos h1] at hf
      exact absurd hf (List.not_mem_nil f)
    · rw [if_neg h1] at hf
      rcases List.mem_cons.mp hf with h2 | h2
      · subst h2
        exact ((mem_peel_iff dom rem p).mp hp).1
      · have h3 := ih (NSGA2.afterPeel dom rem) f h2 p hp
        exact ((mem_afterPeel_iff dom rem p).mp h3).1

lemma sortFronts_flatten_perm (dom : ℕ → ℕ → Bool) (key : ℕ → ℚ)
    (hkey : ∀ q p, dom q p = true → key q < key p) :
    ∀ (fuel : ℕ) (rem : List ℕ), rem.length ≤ fuel →
      (NSGA2.sortFronts dom fuel rem).flatten.Perm rem := by
  intro fuel
  induction fuel with
  | zero =>
    intro rem hlen
    have h0 : rem = [] := List.eq_nil_of_length_eq_zero (Nat.le_zero.mp hlen)
    subst h0
    simp [NSGA2.sortFronts]
  | succ n ih =>
    intro rem hlen
    by_cases hrem : rem = []
    · subst hrem
      simp [NSGA2.sortFronts, NSGA2.peel]
    · have hpe : NSGA2.peel dom rem ≠ [] := peel_ne_nil dom key hkey rem hrem
      rw [NSGA2.sortFronts, if_neg hpe, List.flatten_cons]
      have hperm := perm_peel_afterPeel dom rem
      have hlen2 : (NSGA2.afterPeel dom rem).length ≤ n := by
        have h1 : (NSGA2.peel dom rem).length + (NSGA2.afterPeel dom rem).length
            = rem.length := by
          have h2 := hperm.length_eq
          simpa [List.length_append] using h2
        have h3 : 0 < (NSGA2.peel dom rem).length := List.length_pos.mpr hpe
        omega
      exact ((ih (NSGA2.afterPeel dom rem) hlen2).append_left _).trans hperm

lemma sortFronts_nondom (dom : ℕ → ℕ → Bool) :
    ∀ (fuel : ℕ) (rem : List ℕ) (f : List ℕ), f ∈ NSGA2.sortFronts dom fuel rem →
      ∀ p ∈ f, ∀ q ∈ f, dom q p = false := by
  intro fuel
  induction fuel with
  | zero => intro rem f hf; simp [NSGA2.sortFronts] at hf
  | succ n ih =>
    intro rem f hf p hp q hq
    rw [NSGA2.sortFronts] at hf
    by_cases h1 : NSGA2.peel dom rem = []
    · rw [if_pos h1] at hf
      exact absurd hf (List.not_mem_nil f)
    · rw [if_neg h1] at hf
      rcases List.mem_cons.mp hf with h2 | h2
      · subst h2
        have hps := (mem_peel_iff dom rem p).mp hp
        exact hps.2 q ((mem_peel_iff dom rem q).mp hq).1
      · exact ih _ f h2 p hp q hq

lemma sortFronts_head (dom : ℕ → ℕ → Bool) :
    ∀ (fuel : ℕ) (rem : List ℕ) (p : ℕ),
      p ∈ (NSGA2.sortFronts dom fuel rem).getD 0 [] →
        p ∈ rem ∧ ∀ q ∈ rem, dom q p = false := by
  intro fuel
  cases fuel with
  | zero => intro rem p hp; simp [NSGA2.sortFronts, List.getD_nil] at hp
  | succ n =>
    intro rem p hp
    rw [NSGA2.sortFronts] at hp
    by_cases h1 : NSGA2.peel dom rem = []
    · rw [if_pos h1] at hp
      simp [List.getD_nil] at hp
    · rw [if_neg h1, List.getD_cons_zero] at hp
      exact (mem_peel_iff dom rem p).mp hp

lemma sortFronts_strat (dom : ℕ → ℕ → Bool) :
    ∀ (fuel : ℕ) (rem : List ℕ) (k p : ℕ),
      p ∈ (NSGA2.sortFronts dom fuel rem).getD (k + 1) [] →
        ∃ q ∈ (NSGA2.sortFronts dom fuel rem).getD k [], dom q p = true := by
  intro fuel
  induction fuel with
  | zero => intro rem k p hp; simp [NSGA2.sortFronts, List.getD_nil] at hp
  | succ n ih =>
    intro rem k p hp
    rw [NSGA2.sortFronts] at hp ⊢
    by_cases h1 : NSGA2.peel dom rem = []
    · rw [if_pos h1] at hp
      simp [List.getD_nil] at hp
    · rw [if_neg h1] at hp ⊢
      rw [List.getD_cons_succ] at hp
      cases k with
      | zero =>
        rw [List.getD_cons_zero]
        have hh := sortFronts_head dom n (NSGA2.afterPeel dom rem) p hp
        have hpa := (mem_afterPeel_iff dom rem p).mp hh.1
        have hex : ∃ q ∈ rem, dom q p = true := by
          by_contra hc
          push_neg at hc
          apply hpa.2
          rw [mem_peel_iff]
          refine ⟨hpa.1, fun q hq => ?_⟩
          cases hd : dom q p
          · rfl
          · exact absurd hd (hc q hq)
        obtain ⟨q, hqrem, hqdom⟩ := hex
        refine ⟨q, ?_, hqdom⟩
        by_contra hqnot
        have hqafter : q ∈ NSGA2.afterPeel dom rem :=
          (mem_afterPeel_iff dom rem q).mpr ⟨hqrem, hqnot⟩
        have := hh.2 q hqafter
        rw [this] at hqdom
        exact Bool.false_ne_true hqdom
      | succ k1 =>
        rw [List.getD_cons_succ]
        exact ih (NSGA2.afterPeel dom rem) k1 p hp

lemma sum_le_sum_of_zip (a : List ℚ) :
    ∀ (b : List ℚ), a.length = b.length →
      (∀ c ∈ a.zip b, c.1 ≤ c.2) → a.sum ≤ b.sum := by
  induction a with
  | nil =>
    intro b hlen _
    have h0 : b = [] := List.eq_nil_of_length_eq_zero hlen.symm
    subst h0
    exact le_refl _
  | cons x xs ih =>
    intro b hlen hall
    cases b with
    | nil => simp at hlen
    | cons y ys =>
      rw [List.zip_cons_cons] at hall
      rw [List.sum_cons, List.sum_cons]
      exact add_le_add (hall (x, y) (List.mem_cons_self _ _))
        (ih ys (by simpa using hlen) (fun d hd => hall d (List.mem_cons_of_mem _ hd)))

lemma sum_lt_sum_of_zip (a : List ℚ) :
    ∀ (b : List ℚ), a.length = b.length →
      (∀ c ∈ a.zip b, c.1 ≤ c.2) → (∃ c ∈ a.zip b, c.1 < c.2) →
      a.sum < b.sum := by
  induction a with
  | nil =>
    intro b _ _ hex
    obtain ⟨c, hc, _⟩ := hex
    simp at hc
  | cons x xs ih =>
    intro b hlen hall hex
    cases b with
    | nil => simp at hlen
    | cons y ys =>
      rw [List.zip_cons_cons] at hall hex
      rw [List.sum_cons, List.sum_cons]
      obtain ⟨c, hc, hclt⟩ := hex
      rcases List.mem_cons.mp hc with h1 | h1
      · subst h1
        exact add_lt_add_of_lt_of_le hclt
          (sum_le_sum_of_zip xs ys (by simpa using hlen)
            (fun d hd => hall d (List.mem_cons_of_mem _ hd)))
      · exact add_lt_add_of_le_of_lt (hall (x, y) (List.mem_cons_self _ _))
          (ih ys (by simpa using hlen)
            (fun d hd => hall d (List.mem_cons_of_mem _ hd)) ⟨c, h1, hclt⟩)

lemma dominates_sum_lt (objs : List (List ℚ)) (m : ℕ)
    (hwf : ∀ r ∈ objs, r.length = m) :
    ∀ q p, NSGA2.Dominates objs q p = true →
      NSGA2.sumObj objs q < NSGA2.sumObj objs p := by
  intro q p hdom
  simp only [NSGA2.Dominates, Bool.and_eq_true] at hdom
  obtain ⟨hall, hany⟩ := hdom
  rw [List.all_eq_true] at hall
  rw [List.any_eq_true] at hany
  obtain ⟨c, hc, hcd⟩ := hany
  have hzlen : 0 < ((objs.getD q []).zip (objs.getD p [])).length :=
    List.length_pos.mpr (List.ne_nil_of_mem hc)
  rw [List.length_zip] at hzlen
  have hal : 0 < (objs.getD q []).length := lt_of_lt_of_le hzlen (min_le_left _ _)
  have hbl : 0 < (objs.getD p []).length := lt_of_lt_of_le hzlen (min_le_right _ _)
  have hq : q < objs.length := by
    by_contra hc2
    rw [List.getD_eq_default objs [] (Nat.le_of_not_lt hc2)] at hal
    simp at hal
  have hp : p < objs.length := by
    by_contra hc2
    rw [List.getD_eq_default objs [] (Nat.le_of_not_lt hc2)] at hbl
    simp at hbl
  have hlenq := getD_row_length objs m q hwf hq
  have hlenp := getD_row_length objs m p hwf hp
  unfold NSGA2.sumObj
  exact sum_lt_sum_of_zip (objs.getD q []) (objs.getD p [])
    (by rw [hlenq, hlenp])
    (fun d hd => of_decide_eq_true (hall d hd))
    ⟨c, hc, of_decide_eq_true hcd⟩

/-- C2: for every objective table whose rows all have length `m`, the fronts
produced by `FastNonDominatedSort` partition the population — their
concatenation is a permutation of the candidate indices, so every candidate
belongs to exactly one front —; no candidate in a front dominates another
candidate of the same front; and every candidate of front `k+1` is dominated by
at least one candidate of front `k`. -/
theorem FastNonDominatedSort_valid (objs : List (List ℚ)) (m : ℕ)
    (hwf : ∀ r ∈ objs, r.length = m) :
    ((NSGA2.FastNonDominatedSort objs).flatten.Perm (List.range objs.length)) ∧
    (∀ f ∈ NSGA2.FastNonDominatedSort objs, ∀ p ∈ f, ∀ q ∈ f,
        NSGA2.Dominates objs q p = false) ∧
    (∀ k p, p ∈ (NSGA2.FastNonDominatedSort objs).getD (k + 1) [] →
        ∃ q ∈ (NSGA2.FastNonDominatedSort objs).getD k [],
          NSGA2.Dominates objs q p = true) := by
  unfold NSGA2.FastNonDominatedSort
  refine ⟨?_, ?_, ?_⟩
  · exact sortFronts_flatten_perm _ (NSGA2.sumObj objs)
      (dominates_sum_lt objs m hwf) objs.length (List.range objs.length)
      (le_of_eq (List.length_range _))
  · exact fun f hf p hp q hq => sortFronts_nondom _ _ _ f hf p hp q hq
  · exact fun k p hp => sortFronts_strat _ _ _ k p hp

theorem FastNonDominatedSort_valid_witness :
    (∀ r ∈ [[(0 : ℚ), 0], [1, 1], [2, 0]], r.length = 2) ∧
    (((NSGA2.FastNonDominatedSort [[(0 : ℚ), 0], [1, 1], [2, 0]]).flatten.Perm
        (List.range 3)) ∧
     (∀ f ∈ NSGA2.FastNonDominatedSort [[(0 : ℚ), 0], [1, 1], [2, 0]],
        ∀ p ∈ f, ∀ q ∈ f,
          NSGA2.Dominates [[(0 : ℚ), 0], [1, 1], [2, 0]] q p = false) ∧
     (∀ k p,
        p ∈ (NSGA2.FastNonDominatedSort [[(0 : ℚ), 0], [1, 1], [2, 0]]).getD (k + 1) [] →
        ∃ q ∈ (NSGA2.FastNonDominatedSort [[(0 : ℚ), 0], [1, 1], [2, 0]]).getD k [],
          NSGA2.Dominates [[(0 : ℚ), 0], [1, 1], [2, 0]] q p = true)) :=
  ⟨by decide, FastNonDominatedSort_valid [[(0 : ℚ), 0], [1, 1], [2, 0]] 2 (by decide)⟩

end SortLemmas

section TruncateLemmas

lemma take_sort_subset (cd : ℕ → WithTop ℚ) (f : List ℕ) (cap : ℕ) :
    ∀ x ∈ (List.insertionSort (fun a b => cd b ≤ cd a) f).take cap, x ∈ f := by
  intro x hx
  exact (List.perm_insertionSort _ f).mem_iff.mp (List.mem_of_mem_take hx)

lemma Truncate_elitist (cd : ℕ → WithTop ℚ) :
    ∀ (fronts : List (List ℕ)) (cap i j p q : ℕ),
      fronts.Pairwise (fun f g => ∀ x ∈ f, x ∉ g) →
      i < j → j < fronts.length →
      p ∈ fronts.getD i [] → q ∈ fronts.getD j [] →
      q ∈ NSGA2.Truncate cd fronts cap → p ∈ NSGA2.Truncate cd fronts cap := by
  intro fronts
  induction fronts with
  | nil =>
    intro cap i j p q _ _ hj _ _ _
    simp at hj
  | cons f rest ih =>
    intro cap i j p q hpw hij hj hp hq hqk
    rw [List.pairwise_cons] at hpw
    obtain ⟨j1, rfl⟩ : ∃ j1, j = j1 + 1 := ⟨j - 1, by omega⟩
    rw [List.getD_cons_succ] at hq
    have hj1 : j1 < rest.length := by simpa using hj
    have hfmem : rest.getD j1 [] ∈ rest := by
      rw [List.getD_eq_getElem rest [] hj1]
      exact List.getElem_mem hj1
    have hqnotf : q ∉ f := fun hc => (hpw.1 _ hfmem q hc) hq
    rw [NSGA2.Truncate] at hqk ⊢
    by_cases hle : f.length ≤ cap
    · rw [if_pos hle] at hqk ⊢
      have hqrec : q ∈ NSGA2.Truncate cd rest (cap - f.length) := by
        rcases List.mem_append.mp hqk with h1 | h1
        · exact absurd h1 hqnotf
        · exact h1
      cases i with
      | zero =>
        rw [List.getD_cons_zero] at hp
        exact List.mem_append.mpr (Or.inl hp)
      | succ i1 =>
        rw [List.getD_cons_succ] at hp
        exact List.mem_append.mpr (Or.inr
          (ih (cap - f.length) i1 j1 p q hpw.2 (by omega) hj1 hp hq hqrec))
    · rw [if_neg hle] at hqk
      exact absurd (take_sort_subset cd f cap q hqk) hqnotf

/-- C3: the Truncate step never drops a candidate of a strictly better-ranked
(lower-index) front while keeping a candidate of a strictly worse-ranked front:
for pairwise-disjoint fronts, if any candidate of front `j` survives
truncation, then every candidate of every front `i < j` survives — whole fronts
are taken in rank order and only the single overflowing front is filtered (by
largest crowding distance). -/
theorem Truncate_keeps_better_fronts (cd : ℕ → WithTop ℚ) (fronts : List (List ℕ))
    (cap i j p q : ℕ)
    (hpw : fronts.Pairwise (fun f g => ∀ x ∈ f, x ∉ g))
    (hij : i < j) (hj : j < fronts.length)
    (hp : p ∈ fronts.getD i []) (hq : q ∈ fronts.getD j [])
    (hqkept : q ∈ NSGA2.Truncate cd fronts cap) :
    p ∈ NSGA2.Truncate cd fronts cap :=
  Truncate_elitist cd fronts cap i j p q hpw hij hj hp hq hqkept

theorem Truncate_keeps_better_fronts_witness :
    (([[0], [1, 2]] : List (List ℕ)).Pairwise (fun f g => ∀ x ∈ f, x ∉ g) ∧
      0 < 1 ∧ 1 < 2 ∧
      0 ∈ ([[0], [1, 2]] : List (List ℕ)).getD 0 [] ∧
      2 ∈ ([[0], [1, 2]] : List (List ℕ)).getD 1 [] ∧
      2 ∈ NSGA2.Truncate (fun k => ((k : ℚ) : WithTop ℚ)) [[0], [1, 2]] 2) ∧
    0 ∈ NSGA2.Truncate (fun k => ((k : ℚ) : WithTop ℚ)) [[0], [1, 2]] 2 :=
  ⟨⟨by decide, by decide, by decide, by decide, by decide, by decide⟩,
    Truncate_keeps_better_fronts (fun k => ((k : ℚ) : WithTop ℚ)) [[0], [1, 2]]
      2 0 1 0 2 (by decide) (by decide) (by decide) (by decide) (by decide)
      (by decide)⟩

end TruncateLemmas

section CrowdingLemmas

lemma sorted_insertionSort_values (values : ℕ → ℚ) (l : List ℕ) :
    (List.insertionSort (fun a b => values a ≤ values b) l).Sorted
      (fun a b => values a ≤ values b) := by
  haveI h1 : IsTotal ℕ (fun a b => values a ≤ values b) := ⟨fun a b => le_total _ _⟩
  haveI h2 : IsTrans ℕ (fun a b => values a ≤ values b) :=
    ⟨fun a b c hab hbc => le_trans hab hbc⟩
  exact List.sorted_insertionSort _ l

lemma sorted_head_min (values : ℕ → ℚ) (l : List ℕ)
    (hs : l.Sorted (fun a b => values a ≤ values b)) (hne : l ≠ []) :
    ∀ x ∈ l, values (l.getD 0 0) ≤ values x := by
  intro x hx
  obtain ⟨i, hi, rfl⟩ := List.getElem_of_mem hx
  have h0 : 0 < l.length := List.length_pos.mpr hne
  rw [List.getD_eq_getElem l 0 h0]
  rcases Nat.eq_zero_or_pos i with h1 | h1
  · subst h1; exact le_refl _
  · have h2 := hs.rel_get_of_lt (a := ⟨0, h0⟩) (b := ⟨i, hi⟩) h1
    simpa using h2

lemma sorted_last_max (values : ℕ → ℚ) (l : List ℕ)
    (hs : l.Sorted (fun a b => values a ≤ values b)) (hne : l ≠ []) :
    ∀ x ∈ l, values x ≤ values (l.getD (l.length - 1) 0) := by
  intro x hx
  obtain ⟨i, hi, rfl⟩ := List.getElem_of_mem hx
  have h0 : 0 < l.length := List.length_pos.mpr hne
  have hlast : l.length - 1 < l.length := by omega
  rw [List.getD_eq_getElem l 0 hlast]
  rcases Nat.lt_or_ge i (l.length - 1) with h1 | h1
  · have h2 := hs.rel_get_of_lt (a := ⟨i, hi⟩) (b := ⟨l.length - 1, hlast⟩) h1
    simpa using h2
  · have h3 : i = l.length - 1 := by omega
    subst h3
    exact le_refl _

lemma crowdingPassSorted_head (values : ℕ → ℚ) (sorted : List ℕ)
    (dist : ℕ → WithTop ℚ) (hne : sorted ≠ []) :
    NSGA2.CrowdingPassSorted values sorted dist (sorted.getD 0 0) = ⊤ := by
  cases sorted with
  | nil => exact absurd rfl hne
  | cons a t =>
    unfold NSGA2.CrowdingPassSorted
    rw [List.getD_cons_zero, if_pos (List.mem_cons_self a t),
      if_pos (Or.inl (List.indexOf_cons_self a t))]

lemma crowdingPassSorted_last (values : ℕ → ℚ) (sorted : List ℕ)
    (dist : ℕ → WithTop ℚ) (hne : sorted ≠ []) (hnd : sorted.Nodup) :
    NSGA2.CrowdingPassSorted values sorted dist (sorted.getD (sorted.length - 1) 0) = ⊤ := by
  have h0 : sorted.length - 1 < sorted.length := by
    have := List.length_pos.mpr hne
    omega
  rw [List.getD_eq_getElem sorted 0 h0]
  unfold NSGA2.CrowdingPassSorted
  rw [if_pos (List.getElem_mem h0), List.indexOf_getElem hnd _ h0,
    if_pos (Or.inr rfl)]

lemma crowdingPassSorted_top (values : ℕ → ℚ) (sorted : List ℕ)
    (dist : ℕ → WithTop ℚ) (p : ℕ) (hp : dist p = ⊤) :
    NSGA2.CrowdingPassSorted values sorted dist p = ⊤ := by
  unfold NSGA2.CrowdingPassSorted
  by_cases h1 : p ∈ sorted
  · rw [if_pos h1]
    by_cases h2 : sorted.indexOf p = 0 ∨ sorted.indexOf p = sorted.length - 1
    · rw [if_pos h2]
    · rw [if_neg h2, hp, WithTop.top_add]
  · rw [if_neg h1]
    exact hp

lemma crowdingFold_top (objs : List (List ℚ)) (front : List ℕ) (js : List ℕ) :
    ∀ (dist : ℕ → WithTop ℚ) (p : ℕ), dist p = ⊤ →
      (js.foldl (fun d j => NSGA2.CrowdingPass (NSGA2.valuesOf objs j) front d) dist) p
        = ⊤ := by
  induction js with
  | nil => intro dist p hp; exact hp
  | cons a t ih =>
    intro dist p hp
    rw [List.foldl_cons]
    exact ih _ p (crowdingPassSorted_top _ _ dist p hp)

lemma crowdingFold_boundary (objs : List (List ℚ)) (front : List ℕ) (j p : ℕ)
    (hp : ∀ d : ℕ → WithTop ℚ,
        NSGA2.CrowdingPass (NSGA2.valuesOf objs j) front d p = ⊤) :
    ∀ (js : List ℕ), j ∈ js → ∀ dist,
      (js.foldl (fun d i => NSGA2.CrowdingPass (NSGA2.valuesOf objs i) front d) dist) p
        = ⊤ := by
  intro js
  induction js with
  | nil => intro hj _; exact absurd hj (List.not_mem_nil j)
  | cons a t ih =>
    intro hj dist
    rw [List.foldl_cons]
    rcases List.mem_cons.mp hj with h1 | h1
    · subst h1
      exact crowdingFold_top objs front t _ p (hp dist)
    · exact ih h1 _

lemma crowdingContribution_const (values : ℕ → ℚ) (front : List ℕ)
    (hconst : ∀ p ∈ front, ∀ q ∈ front, values p = values q) :
    ∀ i, NSGA2.CrowdingContribution values
        (List.insertionSort (fun a b => values a ≤ values b) front) i = 0 := by
  intro i
  unfold NSGA2.CrowdingContribution
  by_cases hne : front = []
  · subst hne
    simp [List.insertionSort]
  · have hlen0 : 0 < (List.insertionSort (fun a b => values a ≤ values b) front).length := by
      rw [List.length_insertionSort]
      exact List.length_pos.mpr hne
    have hlast : (List.insertionSort (fun a b => values a ≤ values b) front).length - 1 <
        (List.insertionSort (fun a b => values a ≤ values b) front).length := by omega
    have hmem0 : (List.insertionSort (fun a b => values a ≤ values b) front).getD 0 0
        ∈ front := by
      rw [List.getD_eq_getElem _ 0 hlen0]
      exact (List.perm_insertionSort _ front).mem_iff.mp (List.getElem_mem hlen0)
    have hmeml : (List.insertionSort (fun a b => values a ≤ values b) front).getD
        ((List.insertionSort (fun a b => values a ≤ values b) front).length - 1) 0
        ∈ front := by
      rw [List.getD_eq_getElem _ 0 hlast]
      exact (List.perm_insertionSort _ front).mem_iff.mp (List.getElem_mem hlast)
    rw [if_pos (hconst _ hmeml _ hmem0)]

/-- C4: for every front processed by `CrowdingDistanceAssignment` and every
objective `j < m`: a candidate holding the front's minimum value of objective
`j` and a candidate holding its maximum value receive crowding distance
`+infinity` (`⊤`); and whenever the front is degenerate on objective `j` (all
candidates share the same value, i.e. `max = min`), the crowding contribution
of that objective is 0 for every position, so the division by zero is avoided
and the case is recovered locally rather than surfaced as an error (the
assignment is a total function). -/
theorem CrowdingDistanceAssignment_boundary (objs : List (List ℚ)) (m : ℕ)
    (front : List ℕ) (hnd : front.Nodup) (hne : front ≠ []) (j : ℕ) (hj : j < m) :
    (∃ p ∈ front, (∀ q ∈ front, NSGA2.valuesOf objs j p ≤ NSGA2.valuesOf objs j q) ∧
        NSGA2.CrowdingDistanceAssignment objs m front p = ⊤) ∧
    (∃ p ∈ front, (∀ q ∈ front, NSGA2.valuesOf objs j q ≤ NSGA2.valuesOf objs j p) ∧
        NSGA2.CrowdingDistanceAssignment objs m front p = ⊤) ∧
    ((∀ p ∈ front, ∀ q ∈ front, NSGA2.valuesOf objs j p = NSGA2.valuesOf objs j q) →
      ∀ i, NSGA2.CrowdingContribution (NSGA2.valuesOf objs j)
        (List.insertionSort
          (fun a b => NSGA2.valuesOf objs j a ≤ NSGA2.valuesOf objs j b) front) i
        = 0) := by
  set S := List.insertionSort
    (fun a b => NSGA2.valuesOf objs j a ≤ NSGA2.valuesOf objs j b) front with hS
  have hperm : S.Perm front := List.perm_insertionSort _ front
  have hsne : S ≠ [] := by
    intro hc
    rw [hc] at hperm
    exact hne hperm.symm.eq_nil
  have h0len : 0 < S.length := List.length_pos.mpr hsne
  have hllen : S.length - 1 < S.length := by omega
  have hsorted : S.Sorted (fun a b => NSGA2.valuesOf objs j a ≤ NSGA2.valuesOf objs j b) :=
    sorted_insertionSort_values _ front
  refine ⟨?_, ?_, crowdingContribution_const _ front⟩
  · refine ⟨S.getD 0 0, ?_, ?_, ?_⟩
    · rw [List.getD_eq_getElem S 0 h0len]
      exact hperm.mem_iff.mp (List.getElem_mem h0len)
    · intro q hq
      exact sorted_head_min _ S hsorted hsne q (hperm.mem_iff.mpr hq)
    · exact crowdingFold_boundary objs front j _
        (fun d => crowdingPassSorted_head _ S d hsne)
        (List.range m) (List.mem_range.mpr hj) (fun _ => 0)
  · refine ⟨S.getD (S.length - 1) 0, ?_, ?_, ?_⟩
    · rw [List.getD_eq_getElem S 0 hllen]
      exact hperm.mem_iff.mp (List.getElem_mem hllen)
    · intro q hq
      exact sorted_last_max _ S hsorted hsne q (hperm.mem_iff.mpr hq)
    · exact crowdingFold_boundary objs front j _
        (fun d => crowdingPassSorted_last _ S d hsne (hperm.nodup_iff.mpr hnd))
        (List.range m) (List.mem_range.mpr hj) (fun _ => 0)

theorem CrowdingDistanceAssignment_boundary_witness :
    (([0, 1, 2] : List ℕ).Nodup ∧ ([0, 1, 2] : List ℕ) ≠ [] ∧ 0 < 2) ∧
    ((∃ p ∈ ([0, 1, 2] : List ℕ),
        (∀ q ∈ ([0, 1, 2] : List ℕ),
          NSGA2.valuesOf [[(0 : ℚ), 10], [5, 5], [10, 0]] 0 p ≤
            NSGA2.valuesOf [[(0 : ℚ), 10], [5, 5], [10, 0]] 0 q) ∧
        NSGA2.CrowdingDistanceAssignment [[(0 : ℚ), 10], [5, 5], [10, 0]] 2 [0, 1, 2] p
          = ⊤) ∧
     (∃ p ∈ ([0, 1, 2] : List ℕ),
        (∀ q ∈ ([0, 1, 2] : List ℕ),
          NSGA2.valuesOf [[(0 : ℚ), 10], [5, 5], [10, 0]] 0 q ≤
            NSGA2.valuesOf [[(0 : ℚ), 10], [5, 5], [10, 0]] 0 p) ∧
        NSGA2.CrowdingDistanceAssignment [[(0 : ℚ), 10], [5, 5], [10, 0]] 2 [0, 1, 2] p
          = ⊤) ∧
     ((∀ p ∈ ([0, 1, 2] : List ℕ), ∀ q ∈ ([0, 1, 2] : List ℕ),
          NSGA2.valuesOf [[(0 : ℚ), 10], [5, 5], [10, 0]] 0 p =
            NSGA2.valuesOf [[(0 : ℚ), 10], [5, 5], [10, 0]] 0 q) →
       ∀ i, NSGA2.CrowdingContribution
          (NSGA2.valuesOf [[(0 : ℚ), 10], [5, 5], [10, 0]] 0)
          (List.insertionSort
            (fun a b => NSGA2.valuesOf [[(0 : ℚ), 10], [5, 5], [10, 0]] 0 a ≤
              NSGA2.valuesOf [[(0 : ℚ), 10], [5, 5], [10, 0]] 0 b) [0, 1, 2]) i = 0)) :=
  ⟨⟨by decide, by decide, by decide⟩,
    CrowdingDistanceAssignment_boundary [[(0 : ℚ), 10], [5, 5], [10, 0]] 2 [0, 1, 2]
      (by decide) (by decide) 0 (by decide)⟩

end CrowdingLemmas

section OptimizeLemmas

lemma selectionRound_length (cfg : NSGA2.Config) (o : NSGA2.Oracle)
    (population : List (List ℚ)) (ranks : ℕ → ℕ) (cd : ℕ → WithTop ℚ)
    (acc : List (List ℚ) × ℕ × ℕ) :
    (NSGA2.SelectionRound cfg o population ranks cd acc).1.length
      = acc.1.length + 2 := by
  simp [NSGA2.SelectionRound]

lemma selectionFold_length (cfg : NSGA2.Config) (o : NSGA2.Oracle)
    (population : List (List ℚ)) (ranks : ℕ → ℕ) (cd : ℕ → WithTop ℚ) :
    ∀ (l : List ℕ) (acc : List (List ℚ) × ℕ × ℕ),
      ((l.foldl (fun a _ => NSGA2.SelectionRound cfg o population ranks cd a) acc).1.length)
        = acc.1.length + 2 * l.length := by
  intro l
  induction l with
  | nil => intro acc; simp
  | cons b t ih =>
    intro acc
    rw [List.foldl_cons, ih (NSGA2.SelectionRound cfg o population ranks cd acc),
      selectionRound_length, List.length_cons]
    omega

lemma bts_length (cfg : NSGA2.Config) (o : NSGA2.Oracle)
    (population : List (List ℚ)) (ranks : ℕ → ℕ) (cd : ℕ → WithTop ℚ) (s : ℕ × ℕ) :
    (NSGA2.BinaryTournamentSelection cfg o population ranks cd s).1.length
      = 2 * (cfg.populationSize / 2) := by
  unfold NSGA2.BinaryTournamentSelection
  rw [selectionFold_length]
  simp [List.length_range]

lemma stepChildren_length (cfg : NSGA2.Config) (o : NSGA2.Oracle)
    (f : List ℚ → List ℚ) (pop : List (List ℚ)) (s : ℕ × ℕ)
    (h2 : cfg.populationSize % 2 = 0) :
    (NSGA2.StepChildren cfg o f pop s).1.length = cfg.populationSize := by
  unfold NSGA2.StepChildren
  rw [bts_length]
  omega

lemma truncate_length (cd : ℕ → WithTop ℚ) :
    ∀ (fronts : List (List ℕ)) (cap : ℕ),
      (NSGA2.Truncate cd fronts cap).length = min cap fronts.flatten.length := by
  intro fronts
  induction fronts with
  | nil => intro cap; simp [NSGA2.Truncate]
  | cons f rest ih =>
    intro cap
    rw [NSGA2.Truncate]
    by_cases hle : f.length ≤ cap
    · rw [if_pos hle, List.length_append, ih, List.flatten_cons, List.length_append]
      omega
    · rw [if_neg hle, List.length_take, List.length_insertionSort,
        List.flatten_cons, List.length_append]
      omega

lemma fnds_flatten_length (objs : List (List ℚ)) (m : ℕ)
    (hwf : ∀ r ∈ objs, r.length = m) :
    (NSGA2.FastNonDominatedSort objs).flatten.length = objs.length := by
  unfold NSGA2.FastNonDominatedSort
  have hp := sortFronts_flatten_perm _ (NSGA2.sumObj objs) (dominates_sum_lt objs m hwf)
    objs.length (List.range objs.length) (le_of_eq (List.length_range _))
  have h2 := hp.length_eq
  rw [List.length_range] at h2
  exact h2

lemma step_length (cfg : NSGA2.Config) (o : NSGA2.Oracle) (f : List ℚ → List ℚ) (m : ℕ)
    (h2 : cfg.populationSize % 2 = 0) (hf : ∀ x, (f x).length = m)
    (pop : List (List ℚ)) (s : ℕ × ℕ) (hlen : pop.length = cfg.populationSize) :
    (NSGA2.Step cfg o f (pop, s)).1.length = cfg.populationSize := by
  have hwfU : ∀ r ∈ (pop ++ (NSGA2.StepChildren cfg o f pop s).1).map f,
      r.length = m := by
    intro r hr
    obtain ⟨x, hx, rfl⟩ := List.mem_map.mp hr
    exact hf x
  unfold NSGA2.Step
  dsimp only
  rw [List.length_map, truncate_length, fnds_flatten_length _ m hwfU, List.length_map,
    List.length_append, hlen, stepChildren_length cfg o f pop s h2]
  omega

lemma generations_length (cfg : NSGA2.Config) (o : NSGA2.Oracle)
    (f : List ℚ → List ℚ) (m : ℕ)
    (h2 : cfg.populationSize % 2 = 0) (hf : ∀ x, (f x).length = m) :
    ∀ (g : ℕ) (pop : List (List ℚ)) (s : ℕ × ℕ), pop.length = cfg.populationSize →
      (NSGA2.Generations cfg o f g (pop, s)).1.length = cfg.populationSize := by
  intro g
  induction g with
  | zero => intro pop s hlen; exact hlen
  | succ n ih =>
    intro pop s hlen
    rw [NSGA2.Generations]
    have hstep := step_length cfg o f m h2 hf pop s hlen
    cases hst : NSGA2.Step cfg o f (pop, s) with
    | mk pop2 s2 =>
      rw [hst] at hstep
      exact ih pop2 s2 hstep

/-- C6: the population size is invariant across generations: children counts
equal `populationSize` (for the `populationSize % 4 = 0` configurations the
interface requires), the merged parent-and-child union has size exactly
`2 * populationSize`, and after every generational step — hence after every
Truncate — the population again has exactly `populationSize` candidates. -/
theorem population_size_invariant (cfg : NSGA2.Config) (o : NSGA2.Oracle)
    (f : List ℚ → List ℚ) (m : ℕ)
    (h4 : cfg.populationSize % 4 = 0)
    (hf : ∀ x, (f x).length = m)
    (pop : List (List ℚ)) (s : ℕ × ℕ)
    (hlen : pop.length = cfg.populationSize) :
    ((NSGA2.StepChildren cfg o f pop s).1.length = cfg.populationSize) ∧
    ((pop ++ (NSGA2.StepChildren cfg o f pop s).1).length = 2 * cfg.populationSize) ∧
    (∀ g, (NSGA2.Generations cfg o f g (pop, s)).1.length = cfg.populationSize) := by
  have h2 : cfg.populationSize % 2 = 0 := by omega
  refine ⟨stepChildren_length cfg o f pop s h2, ?_, ?_⟩
  · rw [List.length_append, hlen, stepChildren_length cfg o f pop s h2]
    omega
  · intro g
    exact generations_length cfg o f m h2 hf g pop s hlen

theorem population_size_invariant_witness :
    ((4 % 4 = 0) ∧ (∀ x : List ℚ, ((fun y : List ℚ => [y.getD 0 0]) x).length = 1) ∧
      ([[(0 : ℚ)], [0], [0], [0]].length = 4)) ∧
    ((NSGA2.StepChildren ⟨4, 1, 0, 0, 0, 0⟩ ⟨fun _ => 0, fun _ => 0⟩
        (fun y : List ℚ => [y.getD 0 0]) [[(0 : ℚ)], [0], [0], [0]] (0, 0)).1.length = 4) ∧
    (([[(0 : ℚ)], [0], [0], [0]] ++
        (NSGA2.StepChildren ⟨4, 1, 0, 0, 0, 0⟩ ⟨fun _ => 0, fun _ => 0⟩
          (fun y : List ℚ => [y.getD 0 0]) [[(0 : ℚ)], [0], [0], [0]] (0, 0)).1).length
      = 2 * 4) ∧
    (∀ g, (NSGA2.Generations ⟨4, 1, 0, 0, 0, 0⟩ ⟨fun _ => 0, fun _ => 0⟩
        (fun y : List ℚ => [y.getD 0 0]) g ([[(0 : ℚ)], [0], [0], [0]], (0, 0))).1.length
      = 4) :=
  ⟨⟨by decide, fun x => rfl, by decide⟩,
    population_size_invariant ⟨4, 1, 0, 0, 0, 0⟩ ⟨fun _ => 0, fun _ => 0⟩
      (fun y : List ℚ => [y.getD 0 0]) 1 (by decide) (fun x => rfl)
      [[(0 : ℚ)], [0], [0], [0]] (0, 0) (by decide)⟩

/-- C7: with `maxGenerations = 0`, `Optimize` performs no generational step and
returns exactly the candidates of the rank-0 front of the initial population
built around the starting point. -/
theorem optimize_zero_generations (cfg : NSGA2.Config) (o : NSGA2.Oracle)
    (f : List ℚ → List ℚ) (iterate : List ℚ)
    (h0 : cfg.maxGenerations = 0) :
    NSGA2.Optimize cfg o f iterate =
      ((NSGA2.FastNonDominatedSort
          ((NSGA2.initialPopulation cfg o iterate (0, 0)).1.map f)).headD []).map
        (fun i => (NSGA2.initialPopulation cfg o iterate (0, 0)).1.getD i []) := by
  unfold NSGA2.Optimize NSGA2.bestFront
  rw [h0]
  rfl

theorem optimize_zero_generations_witness :
    ((⟨4, 0, 0, 0, 0, 0⟩ : NSGA2.Config).maxGenerations = 0) ∧
    (NSGA2.Optimize ⟨4, 0, 0, 0, 0, 0⟩ ⟨fun _ => 0, fun _ => 0⟩
        (fun y : List ℚ => [y.getD 0 0]) [1] =
      ((NSGA2.FastNonDominatedSort
          ((NSGA2.initialPopulation ⟨4, 0, 0, 0, 0, 0⟩ ⟨fun _ => 0, fun _ => 0⟩
            [1] (0, 0)).1.map (fun y : List ℚ => [y.getD 0 0]))).headD []).map
        (fun i => (NSGA2.initialPopulation ⟨4, 0, 0, 0, 0, 0⟩ ⟨fun _ => 0, fun _ => 0⟩
          [1] (0, 0)).1.getD i [])) :=
  ⟨rfl, optimize_zero_generations ⟨4, 0, 0, 0, 0, 0⟩ ⟨fun _ => 0, fun _ => 0⟩
    (fun y : List ℚ => [y.getD 0 0]) [1] rfl⟩

/-- C8: `Optimize` is deterministic given a seeded random source: two runs with
the same configuration, the same oracle (seeded random source), the same
objective functions and the same starting point produce identical populations
at every generation (`PopulationTrace`) and return identical fronts. -/
theorem optimize_deterministic (cfg1 cfg2 : NSGA2.Config) (o1 o2 : NSGA2.Oracle)
    (f1 f2 : List ℚ → List ℚ) (it1 it2 : List ℚ)
    (hc : cfg1 = cfg2) (ho : o1 = o2) (hf : f1 = f2) (hi : it1 = it2) :
    NSGA2.PopulationTrace cfg1 o1 f1 it1 = NSGA2.PopulationTrace cfg2 o2 f2 it2 ∧
    NSGA2.Optimize cfg1 o1 f1 it1 = NSGA2.Optimize cfg2 o2 f2 it2 := by
  subst hc
  subst ho
  subst hf
  subst hi
  exact ⟨rfl, rfl⟩

theorem optimize_deterministic_witness :
    NSGA2.PopulationTrace ⟨4, 1, 0, 0, 0, 0⟩ ⟨fun _ => 0, fun _ => 0⟩
        (fun y : List ℚ => [y.getD 0 0]) [1] =
      NSGA2.PopulationTrace ⟨4, 1, 0, 0, 0, 0⟩ ⟨fun _ => 0, fun _ => 0⟩
        (fun y : List ℚ => [y.getD 0 0]) [1] ∧
    NSGA2.Optimize ⟨4, 1, 0, 0, 0, 0⟩ ⟨fun _ => 0, fun _ => 0⟩
        (fun y : List ℚ => [y.getD 0 0]) [1] =
      NSGA2.Optimize ⟨4, 1, 0, 0, 0, 0⟩ ⟨fun _ => 0, fun _ => 0⟩
        (fun y : List ℚ => [y.getD 0 0]) [1] :=
  optimize_deterministic _ _ _ _ _ _ _ _ rfl rfl rfl rfl

end OptimizeLemmas
